import Mathlib

set_option maxHeartbeats 1000000

/-! Shallow embedding of ACOROTA.py, a monthly front-desk rota generator:
calendar generation (`generate_all_dates`, `generate_dates`), the assignment
engine (`generate_rota`), and the post-hoc validator (`validate_shifts`).
Dates are proleptic-Gregorian triples as in Python `datetime.date`; the
`random.choice` tie-break is modelled by an injected stream `rnd : Nat → Nat`
of draws, the draw for the k-th call selecting index `rnd k % poolsize`. -/

/-- A calendar date (year, month, day), as in Python `datetime.date`. -/
structure Date where
  year : Nat
  month : Nat
  day : Nat
deriving DecidableEq, Repr

instance : Inhabited Date := ⟨⟨1, 1, 1⟩⟩

/-- Gregorian leap-year test, as used by `calendar.monthrange`. -/
def isLeap (y : Nat) : Bool := y % 4 == 0 && (y % 100 != 0 || y % 400 == 0)

/-- Number of days in the month, `calendar.monthrange(y, m)[1]`. -/
def daysInMonth (y m : Nat) : Nat :=
  if m = 2 then (if isLeap y then 29 else 28)
  else if m = 4 ∨ m = 6 ∨ m = 9 ∨ m = 11 then 30 else 31

/-- Days in the months of year `y` strictly before month `m`. -/
def daysBeforeMonth (y m : Nat) : Nat :=
  ((List.range (m - 1)).map (fun k => daysInMonth y (k + 1))).sum

/-- Days before January 1 of year `y` in the proleptic Gregorian calendar. -/
def daysBeforeYear (y : Nat) : Nat :=
  365 * (y - 1) + (y - 1) / 4 + (y - 1) / 400 - (y - 1) / 100

/-- Python `date.toordinal()`: day 1 is 0001-01-01. -/
def toOrdinal (d : Date) : Nat :=
  daysBeforeYear d.year + daysBeforeMonth d.year d.month + d.day

/-- Python `date.weekday()`: 0 = Monday .. 6 = Sunday. -/
def weekday (d : Date) : Nat := (toOrdinal d + 6) % 7

/-- A triple representable as a Python `datetime.date` (so within MINYEAR..MAXYEAR
and with the day in range for its month). -/
def ValidDate (d : Date) : Prop :=
  1 ≤ d.year ∧ d.year ≤ 9999 ∧ 1 ≤ d.month ∧ d.month ≤ 12 ∧
    1 ≤ d.day ∧ d.day ≤ daysInMonth d.year d.month

instance (d : Date) : Decidable (ValidDate d) := by unfold ValidDate; infer_instance

/-- `generate_all_dates(year, month)`: every date of the month, ascending
(the loop `date(year, month, d) for d in range(1, num_days + 1)`). -/
def generate_all_dates (y m : Nat) : List Date :=
  (List.range (daysInMonth y m)).map (fun i => ⟨y, m, i + 1⟩)

/-- `generate_dates(year, month)`: the dates of the month whose weekday is
Monday..Friday, ascending (the loop over `start_date + timedelta(days=i)`
keeping `d.weekday() < 5`). -/
def generate_dates (y m : Nat) : List Date :=
  (generate_all_dates y m).filter (fun d => decide (weekday d < 5))

/-- Two-digit zero-padded decimal field, as `%d` and `%m` in `strftime`
(a list of digit tokens, most significant first). -/
def pad2 (n : Nat) : List Nat := [n / 10, n % 10]

/-- The `strftime('%d/%m/%Y')` date string as a token list: digit characters
are their values 0-9 and the separator `/` is token 10; the year field is the
four digits of a `datetime` year (1..9999). -/
def formatDate (d : Date) : List Nat :=
  pad2 d.day ++ 10 :: pad2 d.month ++ 10 ::
    [d.year / 1000, d.year / 100 % 10, d.year / 10 % 10, d.year % 10]

/-- Decimal value of a digit-token list, most significant first. -/
def digitsVal (l : List Nat) : Nat := l.foldl (fun a d => a * 10 + d) 0

/-- `datetime.strptime(s, '%d/%m/%Y')`: one or two day digits, `/`, one or two
month digits, `/`, exactly four year digits ending the string, then the
`date(y, m, d)` constructor's range validation. `none` wherever Python raises
`ValueError`. -/
def parseDate (l : List Nat) : Option Date :=
  let ds := l.takeWhile (fun t => decide (t < 10))
  let r1 := l.drop ds.length
  if ds.length = 0 ∨ 2 < ds.length ∨ r1.head? ≠ some 10 then none else
  let r2 := r1.tail
  let ms := r2.takeWhile (fun t => decide (t < 10))
  let r3 := r2.drop ms.length
  if ms.length = 0 ∨ 2 < ms.length ∨ r3.head? ≠ some 10 then none else
  let r4 := r3.tail
  if r4.length = 4 ∧ (∀ t ∈ r4, t < 10) then
    let yv := digitsVal r4
    let mv := digitsVal ms
    let dv := digitsVal ds
    if 1 ≤ yv ∧ 1 ≤ mv ∧ mv ≤ 12 ∧ 1 ≤ dv ∧ dv ≤ daysInMonth yv mv then
      some ⟨yv, mv, dv⟩
    else none
  else none

/-- `strftime('%A')`: the English weekday name. -/
def dayName (w : Nat) : String :=
  ["Monday", "Tuesday", "Wednesday", "Thursday", "Friday", "Saturday", "Sunday"].getD w ""

/-- One staff member, as the dicts of `staff_list`: fixed name and office days,
per-run holiday set, and the two mutable per-run fields. Python sets are
modelled as lists used only through membership, insertion and size. -/
structure Staff where
  name : String
  office_days : List Nat
  holidays : List Date
  assigned_dates : List Date
  shift_count : Nat
deriving DecidableEq, Repr

instance : Inhabited Staff := ⟨⟨"", [], [], [], 0⟩⟩

/-- One produced rota row: the `entry` dict of `generate_rota`. -/
structure Entry where
  date : List Nat
  day : String
  shift : String
  notes : String
deriving DecidableEq, Repr

instance : Inhabited Entry := ⟨⟨[], "", "", ""⟩⟩

/-- A warning emitted by `validate_shifts` (the two f-string shapes, kept as
tagged data carrying the fields interpolated into the string). -/
inductive Warning where
  | invalidDate (raw : List Nat)
  | holidayConflict (name : String) (raw : List Nat)
deriving DecidableEq, Repr

/-- Whether a warning is a holiday-conflict warning. -/
def Warning.isConflict : Warning → Bool
  | .holidayConflict _ _ => true
  | _ => false

/-- Whether a warning is an invalid-date-format warning. -/
def Warning.isInvalid : Warning → Bool
  | .invalidDate _ => true
  | _ => false

/-- Python `set.add` on a set modelled as a duplicate-free list. -/
def insertDate (d : Date) (l : List Date) : List Date := if d ∈ l then l else d :: l

/-- Python `min` over a nonempty list (0 for `[]`, which never occurs). -/
def listMin : List Nat → Nat
  | [] => 0
  | x :: xs => xs.foldl Nat.min x

/-- Cross-iteration engine state: the staff registry (mutated in place in the
source), `last_assigned_staff`, and how many `random.choice` calls were made. -/
structure EngineState where
  staff : List Staff
  last : Option String
  k : Nat
deriving DecidableEq, Repr

/-- The staff-list element at index `i` (indices are in range wherever used). -/
def staffAt (staff : List Staff) (i : Nat) : Staff := staff.getD i default

/-- Primary candidate pool, as indices into the staff list: available on this
weekday, not on holiday, and not already assigned this date (lines 62-67). -/
def availList (staff : List Staff) (d : Date) : List Nat :=
  (List.range staff.length).filter (fun i =>
    decide (weekday d ∈ (staffAt staff i).office_days ∧
      d ∉ (staffAt staff i).holidays ∧ d ∉ (staffAt staff i).assigned_dates))

/-- Fallback (back-to-back) pool: drops the not-already-assigned guard
(lines 76-79). -/
def btbList (staff : List Staff) (d : Date) : List Nat :=
  (List.range staff.length).filter (fun i =>
    decide (weekday d ∈ (staffAt staff i).office_days ∧ d ∉ (staffAt staff i).holidays))

/-- Consecutive-avoidance filter: drop the previous day's person, but only if
that leaves the pool non-empty (lines 69-72 and 80-83). -/
def applyAvoid (last : Option String) (staff : List Staff) (pool : List Nat) : List Nat :=
  match last with
  | none => pool
  | some n =>
    let f := pool.filter (fun i => decide ((staffAt staff i).name ≠ n))
    if f.isEmpty then pool else f

/-- The candidates of minimum shift count within a pool (lines 85-86 / 96-97). -/
def selCands (st : EngineState) (pool : List Nat) : List Nat :=
  pool.filter (fun i =>
    decide ((staffAt st.staff i).shift_count =
      listMin (pool.map (fun i => (staffAt st.staff i).shift_count))))

/-- The index `random.choice(candidates)` picks: the next draw of the stream,
reduced mod the candidate count (line 87 / 98). -/
def selIdx (rnd : Nat → Nat) (st : EngineState) (pool : List Nat) : Nat :=
  (selCands st pool).getD (rnd st.k % (selCands st pool).length) 0

/-- Selection among the minimum-shift-count candidates of a pool plus the state
update (lines 85-91 and 96-102). -/
def selectFrom (rnd : Nat → Nat) (st : EngineState) (pool : List Nat) (d : Date) :
    EngineState × String :=
  let s := staffAt st.staff (selIdx rnd st pool)
  (⟨st.staff.set (selIdx rnd st pool)
      { s with assigned_dates := insertDate d s.assigned_dates, shift_count := s.shift_count + 1 },
    some s.name, st.k + 1⟩, s.name)

/-- Names of the staff on holiday on `d`, in staff-list order. -/
def holidayNames (staff : List Staff) (d : Date) : List String :=
  (staff.filter (fun s => decide (d ∈ s.holidays))).map (fun s => s.name)

/-- Candidate search of a non-closure day (lines 59-102): primary pool with
avoidance, else fallback pool with avoidance, else the `UNASSIGNED` sentinel. -/
def stepPick (rnd : Nat → Nat) (st : EngineState) (d : Date) : EngineState × String :=
  let pool := applyAvoid st.last st.staff (availList st.staff d)
  if pool.isEmpty then
    let pool2 := applyAvoid st.last st.staff (btbList st.staff d)
    if pool2.isEmpty then (⟨st.staff, none, st.k⟩, "UNASSIGNED")
    else selectFrom rnd st pool2 d
  else selectFrom rnd st pool d

/-- The body of `generate_rota`'s loop for one date (lines 39-112): closure
check, candidate search, then the holiday-note enrichment (on the non-closure
path the notes are empty before enrichment, so the populated-notes branch of
lines 107-108 is only ever reached as the closure branch's own concatenation). -/
def rotaStep (rnd : Nat → Nat) (closure : List Date) (st : EngineState) (d : Date) :
    EngineState × Entry :=
  if d ∈ closure then
    let hn := holidayNames st.staff d
    let note := if hn.isEmpty then "University Closure"
                else "University Closure" ++ " | On Holiday: " ++ String.intercalate ", " hn
    (⟨st.staff, none, st.k⟩, ⟨formatDate d, dayName (weekday d), "CLOSED", note⟩)
  else
    let r := stepPick rnd st d
    let hn := holidayNames r.1.staff d
    let notes := if hn.isEmpty then "" else "On Holiday: " ++ String.intercalate ", " hn
    (r.1, ⟨formatDate d, dayName (weekday d), r.2, notes⟩)

/-- The loop of `generate_rota` over the date list: final state and rota rows. -/
def rotaRun (rnd : Nat → Nat) (closure : List Date) (st : EngineState) :
    List Date → EngineState × List Entry
  | [] => (st, [])
  | d :: ds =>
    let p := rotaStep rnd closure st d
    let q := rotaRun rnd closure p.1 ds
    (q.1, p.2 :: q.2)

/-- `generate_rota(dates, staff, closure_days)`: the rota rows together with the
staff list as mutated in place by the run. -/
def generate_rota (rnd : Nat → Nat) (dates : List Date) (staff : List Staff)
    (closure : List Date) : List Entry × List Staff :=
  let r := rotaRun rnd closure ⟨staff, none, 0⟩ dates
  (r.2, r.1.staff)

/-- Engine state after the first `i` dates of a run started from reset state. -/
def stateAt (rnd : Nat → Nat) (closure : List Date) (staff : List Staff)
    (dates : List Date) (i : Nat) : EngineState :=
  (rotaRun rnd closure ⟨staff, none, 0⟩ (dates.take i)).1

/-- `validate_shifts(df, staff)`: per row, an invalid-date warning when the date
string does not parse, else one holiday-conflict warning per staff member whose
name the shift equals and whose holiday set contains the parsed date. -/
def validate_shifts (rows : List Entry) (staff : List Staff) : List Warning :=
  rows.flatMap (fun e =>
    match parseDate e.date with
    | none => [.invalidDate e.date]
    | some dt => staff.filterMap (fun s =>
        if e.shift = s.name ∧ dt ∈ s.holidays then some (.holidayConflict s.name e.date)
        else none))

/-! Basic lemmas about the helper functions. -/

theorem natMin_def (a b : Nat) : Nat.min a b = if a ≤ b then a else b := rfl

theorem foldl_min_le_init (xs : List Nat) (a : Nat) : xs.foldl Nat.min a ≤ a := by
  induction xs generalizing a with
  | nil => exact le_refl a
  | cons x xs ih => exact le_trans (ih (Nat.min a x)) (Nat.min_le_left a x)

theorem foldl_min_le_mem (xs : List Nat) (a x : Nat) (hx : x ∈ xs) : xs.foldl Nat.min a ≤ x := by
  induction xs generalizing a with
  | nil => cases hx
  | cons y ys ih =>
    rcases List.mem_cons.mp hx with h | h
    · subst h
      exact le_trans (foldl_min_le_init ys (Nat.min a x)) (Nat.min_le_right a x)
    · exact ih (Nat.min a y) h

theorem foldl_min_mem (xs : List Nat) (a : Nat) :
    xs.foldl Nat.min a = a ∨ xs.foldl Nat.min a ∈ xs := by
  induction xs generalizing a with
  | nil => exact Or.inl rfl
  | cons x xs ih =>
    have hstep : (x :: xs).foldl Nat.min a = xs.foldl Nat.min (Nat.min a x) := rfl
    rcases ih (Nat.min a x) with h | h
    · rcases Nat.le_total a x with hax | hax
      · left
        rw [hstep, h, natMin_def, if_pos hax]
      · right
        have hx : Nat.min a x = x := by
          rw [natMin_def]
          by_cases hc : a ≤ x
          · rw [if_pos hc]
            omega
          · rw [if_neg hc]
        rw [hstep, h, hx]
        exact List.mem_cons_self x xs
    · right
      rw [hstep]
      exact List.mem_cons_of_mem x h

theorem listMin_le {l : List Nat} {x : Nat} (hx : x ∈ l) : listMin l ≤ x := by
  cases l with
  | nil => cases hx
  | cons y ys =>
    rcases List.mem_cons.mp hx with h | h
    · subst h; exact foldl_min_le_init ys x
    · exact foldl_min_le_mem ys y x h

theorem listMin_mem {l : List Nat} (h : l ≠ []) : listMin l ∈ l := by
  cases l with
  | nil => exact absurd rfl h
  | cons y ys =>
    have hd : listMin (y :: ys) = ys.foldl Nat.min y := rfl
    rcases foldl_min_mem ys y with h' | h'
    · rw [hd, h']
      exact List.mem_cons_self y ys
    · rw [hd]
      exact List.mem_cons_of_mem y h'

theorem getD_mod_mem {l : List Nat} (h : l ≠ []) (k a : Nat) : l.getD (k % l.length) a ∈ l := by
  have hlen : 0 < l.length := List.length_pos.mpr h
  have hm : k % l.length < l.length := Nat.mod_lt k hlen
  rw [List.getD_eq_getElem l a hm]
  exact List.getElem_mem hm

theorem staffAt_mem {staff : List Staff} {i : Nat} (h : i < staff.length) :
    staffAt staff i ∈ staff := by
  rw [staffAt, List.getD_eq_getElem staff default h]
  exact List.getElem_mem h

theorem mem_availList {staff : List Staff} {d : Date} {i : Nat} :
    i ∈ availList staff d ↔ i < staff.length ∧ weekday d ∈ (staffAt staff i).office_days ∧
      d ∉ (staffAt staff i).holidays ∧ d ∉ (staffAt staff i).assigned_dates := by
  simp [availList, List.mem_filter, List.mem_range, decide_eq_true_iff]

theorem mem_btbList {staff : List Staff} {d : Date} {i : Nat} :
    i ∈ btbList staff d ↔ i < staff.length ∧ weekday d ∈ (staffAt staff i).office_days ∧
      d ∉ (staffAt staff i).holidays := by
  simp [btbList, List.mem_filter, List.mem_range, decide_eq_true_iff]

theorem applyAvoid_spec (last : Option String) (staff : List Staff) (pool : List Nat) :
    (applyAvoid last staff pool = pool ∧
      ∀ n, last = some n → pool.filter (fun i => decide ((staffAt staff i).name ≠ n)) = []) ∨
      ∃ n, last = some n ∧
        applyAvoid last staff pool = pool.filter (fun i => decide ((staffAt staff i).name ≠ n)) ∧
        pool.filter (fun i => decide ((staffAt staff i).name ≠ n)) ≠ [] := by
  cases last with
  | none => exact Or.inl ⟨rfl, fun n h => by cases h⟩
  | some n =>
    have hd : applyAvoid (some n) staff pool =
        if (pool.filter (fun i => decide ((staffAt staff i).name ≠ n))).isEmpty then pool
        else pool.filter (fun i => decide ((staffAt staff i).name ≠ n)) := rfl
    by_cases hf : (pool.filter (fun i => decide ((staffAt staff i).name ≠ n))).isEmpty = true
    · left
      refine ⟨by rw [hd, if_pos hf], ?_⟩
      intro n' hn'
      cases hn'
      exact List.isEmpty_iff.mp hf
    · right
      refine ⟨n, rfl, ?_, ?_⟩
      · rw [hd, if_neg hf]
      · intro hnil
        exact hf (by rw [hnil]; rfl)

theorem applyAvoid_sub {last : Option String} {staff : List Staff} {pool : List Nat} {i : Nat}
    (h : i ∈ applyAvoid last staff pool) : i ∈ pool := by
  rcases applyAvoid_spec last staff pool with ⟨hs, _⟩ | ⟨n, _, hs, _⟩
  · exact hs ▸ h
  · rw [hs] at h
    exact (List.mem_filter.mp h).1

theorem applyAvoid_eq_nil_iff {last : Option String} {staff : List Staff} {pool : List Nat} :
    applyAvoid last staff pool = [] ↔ pool = [] := by
  rcases applyAvoid_spec last staff pool with ⟨hs, _⟩ | ⟨n, _, hs, hne⟩
  · rw [hs]
  · rw [hs]
    constructor
    · intro h
      exact absurd h hne
    · intro h
      subst h
      simp

theorem mem_applyAvoid_of {last : Option String} {staff : List Staff} {pool : List Nat} {i : Nat}
    (hp : i ∈ pool) (hn : ∀ n, last = some n → (staffAt staff i).name ≠ n) :
    i ∈ applyAvoid last staff pool := by
  rcases applyAvoid_spec last staff pool with ⟨hs, _⟩ | ⟨n, hl, hs, _⟩
  · rw [hs]
    exact hp
  · rw [hs]
    exact List.mem_filter.mpr ⟨hp, by simpa using hn n hl⟩

/-! Characterization of the selection step. -/

theorem selCands_sub {st : EngineState} {pool : List Nat} {i : Nat} (h : i ∈ selCands st pool) :
    i ∈ pool := (List.mem_filter.mp h).1

theorem selCands_ne_nil {st : EngineState} {pool : List Nat} (h : pool ≠ []) :
    selCands st pool ≠ [] := by
  have hmm : listMin (pool.map (fun i => (staffAt st.staff i).shift_count)) ∈
      pool.map (fun i => (staffAt st.staff i).shift_count) :=
    listMin_mem (by simpa using h)
  rcases List.mem_map.mp hmm with ⟨j, hj, hjm⟩
  intro hnil
  have : j ∈ selCands st pool := List.mem_filter.mpr ⟨hj, by simp [hjm]⟩
  rw [hnil] at this
  cases this

theorem selIdx_mem_cands {rnd : Nat → Nat} {st : EngineState} {pool : List Nat} (h : pool ≠ []) :
    selIdx rnd st pool ∈ selCands st pool :=
  getD_mod_mem (selCands_ne_nil h) _ 0

theorem selIdx_mem {rnd : Nat → Nat} {st : EngineState} {pool : List Nat} (h : pool ≠ []) :
    selIdx rnd st pool ∈ pool := selCands_sub (selIdx_mem_cands h)

theorem selIdx_count {rnd : Nat → Nat} {st : EngineState} {pool : List Nat} (h : pool ≠ []) :
    (staffAt st.staff (selIdx rnd st pool)).shift_count =
      listMin (pool.map (fun i => (staffAt st.staff i).shift_count)) := by
  have h2 := @selIdx_mem_cands rnd st pool h
  unfold selCands at h2
  have h3 := (List.mem_filter.mp h2).2
  simpa using h3

theorem selIdx_count_le {rnd : Nat → Nat} {st : EngineState} {pool : List Nat} {i : Nat}
    (h : pool ≠ []) (hi : i ∈ pool) :
    (staffAt st.staff (selIdx rnd st pool)).shift_count ≤ (staffAt st.staff i).shift_count := by
  rw [selIdx_count h]
  exact listMin_le (List.mem_map_of_mem _ hi)

theorem selectFrom_eq (rnd : Nat → Nat) (st : EngineState) (pool : List Nat) (d : Date) :
    selectFrom rnd st pool d =
      (⟨st.staff.set (selIdx rnd st pool)
          { staffAt st.staff (selIdx rnd st pool) with
            assigned_dates := insertDate d (staffAt st.staff (selIdx rnd st pool)).assigned_dates,
            shift_count := (staffAt st.staff (selIdx rnd st pool)).shift_count + 1 },
        some (staffAt st.staff (selIdx rnd st pool)).name, st.k + 1⟩,
       (staffAt st.staff (selIdx rnd st pool)).name) := rfl

/-- Case analysis of the candidate search for a non-closure day: either both
pools are empty and the day is `UNASSIGNED` with no state change beyond the
`lastAssignedName` reset, or selection happens from the avoided primary pool
(when the primary pool is non-empty) or the avoided fallback pool. -/
theorem stepPick_spec (rnd : Nat → Nat) (st : EngineState) (d : Date) :
    (availList st.staff d = [] ∧ btbList st.staff d = [] ∧
      stepPick rnd st d = (⟨st.staff, none, st.k⟩, "UNASSIGNED")) ∨
    ∃ pool, pool ≠ [] ∧
      (pool = applyAvoid st.last st.staff (availList st.staff d) ∨
        availList st.staff d = [] ∧ pool = applyAvoid st.last st.staff (btbList st.staff d)) ∧
      stepPick rnd st d = selectFrom rnd st pool d := by
  have hd : stepPick rnd st d =
      if (applyAvoid st.last st.staff (availList st.staff d)).isEmpty then
        if (applyAvoid st.last st.staff (btbList st.staff d)).isEmpty then
          (⟨st.staff, none, st.k⟩, "UNASSIGNED")
        else selectFrom rnd st (applyAvoid st.last st.staff (btbList st.staff d)) d
      else selectFrom rnd st (applyAvoid st.last st.staff (availList st.staff d)) d := rfl
  by_cases h1 : (applyAvoid st.last st.staff (availList st.staff d)).isEmpty = true
  · have hav : availList st.staff d = [] :=
      applyAvoid_eq_nil_iff.mp (List.isEmpty_iff.mp h1)
    by_cases h2 : (applyAvoid st.last st.staff (btbList st.staff d)).isEmpty = true
    · left
      refine ⟨hav, applyAvoid_eq_nil_iff.mp (List.isEmpty_iff.mp h2), ?_⟩
      rw [hd, if_pos h1, if_pos h2]
    · right
      refine ⟨applyAvoid st.last st.staff (btbList st.staff d), ?_, Or.inr ⟨hav, rfl⟩, ?_⟩
      · intro hnil
        exact h2 (List.isEmpty_iff.mpr hnil)
      · rw [hd, if_pos h1, if_neg h2]
  · right
    refine ⟨applyAvoid st.last st.staff (availList st.staff d), ?_, Or.inl rfl, ?_⟩
    · intro hnil
      exact h1 (List.isEmpty_iff.mpr hnil)
    · rw [hd, if_neg h1]

theorem rotaStep_closure {rnd : Nat → Nat} {closure : List Date} {st : EngineState} {d : Date}
    (h : d ∈ closure) :
    rotaStep rnd closure st d =
      (⟨st.staff, none, st.k⟩,
       ⟨formatDate d, dayName (weekday d), "CLOSED",
        if (holidayNames st.staff d).isEmpty then "University Closure"
        else "University Closure" ++ " | On Holiday: " ++
          String.intercalate ", " (holidayNames st.staff d)⟩) := by
  unfold rotaStep
  rw [if_pos h]

theorem rotaStep_nonclosure {rnd : Nat → Nat} {closure : List Date} {st : EngineState} {d : Date}
    (h : d ∉ closure) :
    rotaStep rnd closure st d =
      ((stepPick rnd st d).1,
       ⟨formatDate d, dayName (weekday d), (stepPick rnd st d).2,
        if (holidayNames (stepPick rnd st d).1.staff d).isEmpty then ""
        else "On Holiday: " ++
          String.intercalate ", " (holidayNames (stepPick rnd st d).1.staff d)⟩) := by
  unfold rotaStep
  rw [if_neg h]

/-! Stability of the immutable staff fields and run-structure lemmas. -/

/-- The per-run-immutable part of a staff record: name, office days, holidays. -/
def fixedPart (s : Staff) : String × List Nat × List Date := (s.name, s.office_days, s.holidays)

theorem map_set_stable {β : Type} (f : Staff → β) (l : List Staff) (i : Nat) (a : Staff)
    (ha : f a = f (staffAt l i)) : (l.set i a).map f = l.map f := by
  induction l generalizing i with
  | nil => rfl
  | cons x xs ih =>
    cases i with
    | zero =>
      have hx : f a = f x := by simpa [staffAt] using ha
      simp [hx]
    | succ j =>
      have hj : f a = f (staffAt xs j) := by simpa [staffAt] using ha
      simp [ih j hj]

theorem sum_map_set_succ (f : Staff → Nat) (l : List Staff) (i : Nat) (a : Staff)
    (hi : i < l.length) (ha : f a = f (staffAt l i) + 1) :
    ((l.set i a).map f).sum = (l.map f).sum + 1 := by
  induction l generalizing i with
  | nil => simp at hi
  | cons x xs ih =>
    cases i with
    | zero =>
      have hx : f a = f x + 1 := by simpa [staffAt] using ha
      simp [hx]
      omega
    | succ j =>
      have hj : j < xs.length := by simpa using hi
      have ha' : f a = f (staffAt xs j) + 1 := by simpa [staffAt] using ha
      have hc : (x :: xs).set (j + 1) a = x :: xs.set j a := rfl
      rw [hc, List.map_cons, List.map_cons, List.sum_cons, List.sum_cons, ih j hj ha']
      omega

theorem selectFrom_fixedPart {rnd : Nat → Nat} {st : EngineState} {pool : List Nat} {d : Date} :
    (selectFrom rnd st pool d).1.staff.map fixedPart = st.staff.map fixedPart := by
  rw [selectFrom_eq]
  exact map_set_stable fixedPart st.staff _ _ rfl

theorem stepPick_fixedPart {rnd : Nat → Nat} {st : EngineState} {d : Date} :
    (stepPick rnd st d).1.staff.map fixedPart = st.staff.map fixedPart := by
  rcases stepPick_spec rnd st d with ⟨_, _, he⟩ | ⟨pool, _, _, he⟩
  · rw [he]
  · rw [he]
    exact selectFrom_fixedPart

theorem rotaStep_fixedPart {rnd : Nat → Nat} {closure : List Date} {st : EngineState} {d : Date} :
    (rotaStep rnd closure st d).1.staff.map fixedPart = st.staff.map fixedPart := by
  by_cases h : d ∈ closure
  · rw [rotaStep_closure h]
  · rw [rotaStep_nonclosure h]
    exact stepPick_fixedPart

theorem rotaRun_fixedPart (rnd : Nat → Nat) (closure : List Date) (st : EngineState)
    (ds : List Date) :
    (rotaRun rnd closure st ds).1.staff.map fixedPart = st.staff.map fixedPart := by
  induction ds generalizing st with
  | nil => rfl
  | cons d ds ih =>
    have hstep : rotaRun rnd closure st (d :: ds) =
        ((rotaRun rnd closure (rotaStep rnd closure st d).1 ds).1,
         (rotaStep rnd closure st d).2 :: (rotaRun rnd closure (rotaStep rnd closure st d).1 ds).2) :=
      rfl
    rw [hstep]
    rw [ih (rotaStep rnd closure st d).1]
    exact rotaStep_fixedPart

theorem rotaRun_length (rnd : Nat → Nat) (closure : List Date) (st : EngineState)
    (ds : List Date) : (rotaRun rnd closure st ds).2.length = ds.length := by
  induction ds generalizing st with
  | nil => rfl
  | cons d ds ih =>
    have hstep : rotaRun rnd closure st (d :: ds) =
        ((rotaRun rnd closure (rotaStep rnd closure st d).1 ds).1,
         (rotaStep rnd closure st d).2 :: (rotaRun rnd closure (rotaStep rnd closure st d).1 ds).2) :=
      rfl
    rw [hstep]
    simpa using ih (rotaStep rnd closure st d).1

theorem rotaStep_date {rnd : Nat → Nat} {closure : List Date} {st : EngineState} {d : Date} :
    (rotaStep rnd closure st d).2.date = formatDate d := by
  by_cases h : d ∈ closure
  · rw [rotaStep_closure h]
  · rw [rotaStep_nonclosure h]

theorem rotaRun_dates (rnd : Nat → Nat) (closure : List Date) (st : EngineState)
    (ds : List Date) : (rotaRun rnd closure st ds).2.map (fun e => e.date) = ds.map formatDate := by
  induction ds generalizing st with
  | nil => rfl
  | cons d ds ih =>
    have hstep : rotaRun rnd closure st (d :: ds) =
        ((rotaRun rnd closure (rotaStep rnd closure st d).1 ds).1,
         (rotaStep rnd closure st d).2 :: (rotaRun rnd closure (rotaStep rnd closure st d).1 ds).2) :=
      rfl
    rw [hstep]
    simp only [List.map_cons, rotaStep_date, ih (rotaStep rnd closure st d).1]

theorem rotaRun_getD (rnd : Nat → Nat) (closure : List Date) (st : EngineState)
    (ds : List Date) (i : Nat) (hi : i < ds.length) :
    (rotaRun rnd closure st ds).2.getD i default =
      (rotaStep rnd closure (rotaRun rnd closure st (ds.take i)).1 (ds.getD i default)).2 := by
  induction ds generalizing st i with
  | nil => simp at hi
  | cons d ds ih =>
    have hstep : rotaRun rnd closure st (d :: ds) =
        ((rotaRun rnd closure (rotaStep rnd closure st d).1 ds).1,
         (rotaStep rnd closure st d).2 :: (rotaRun rnd closure (rotaStep rnd closure st d).1 ds).2) :=
      rfl
    cases i with
    | zero =>
      rw [hstep]
      rfl
    | succ j =>
      have hj : j < ds.length := by simpa using hi
      rw [hstep]
      have h1 : ((rotaStep rnd closure st d).2 ::
          (rotaRun rnd closure (rotaStep rnd closure st d).1 ds).2).getD (j + 1) default =
          (rotaRun rnd closure (rotaStep rnd closure st d).1 ds).2.getD j default :=
        List.getD_cons_succ
      have h2 : (d :: ds).getD (j + 1) default = ds.getD j default := List.getD_cons_succ
      have h3 : (d :: ds).take (j + 1) = d :: ds.take j := rfl
      rw [h1, h2, h3]
      exact ih (rotaStep rnd closure st d).1 j hj

/-! Workhorse lemmas: pool emptiness, the shape of one engine step, and the
relation between run prefixes and states. -/

theorem btbList_eq_nil_iff {staff : List Staff} {d : Date} :
    btbList staff d = [] ↔ ¬ ∃ s ∈ staff, weekday d ∈ s.office_days ∧ d ∉ s.holidays := by
  constructor
  · rintro h ⟨s, hsmem, hoff, hhol⟩
    obtain ⟨i, hi, hget⟩ := List.getElem_of_mem hsmem
    have hsi : staffAt staff i = s := by
      rw [staffAt, List.getD_eq_getElem staff default hi, hget]
    have : i ∈ btbList staff d := mem_btbList.mpr ⟨hi, by rw [hsi]; exact ⟨hoff, hhol⟩⟩
    rw [h] at this
    cases this
  · intro h
    by_contra hne
    obtain ⟨i, hi⟩ := List.exists_mem_of_ne_nil _ hne
    obtain ⟨hlt, hoff, hhol⟩ := mem_btbList.mp hi
    exact h ⟨staffAt staff i, staffAt_mem hlt, hoff, hhol⟩

theorem mem_pool_btb {st : EngineState} {d : Date} {pool : List Nat} {j : Nat}
    (hporig : pool = applyAvoid st.last st.staff (availList st.staff d) ∨
      availList st.staff d = [] ∧ pool = applyAvoid st.last st.staff (btbList st.staff d))
    (hj : j ∈ pool) : j ∈ btbList st.staff d := by
  rcases hporig with h | ⟨_, h⟩
  · subst h
    have hav := applyAvoid_sub hj
    obtain ⟨hlt, hoff, hhol, _⟩ := mem_availList.mp hav
    exact mem_btbList.mpr ⟨hlt, hoff, hhol⟩
  · subst h
    exact applyAvoid_sub hj

/-- The shape of one step: either the staff registry is untouched and the row
shows a sentinel, or exactly one pool member's record is updated and the row
shows that member's name. -/
theorem rotaStep_cases (rnd : Nat → Nat) (closure : List Date) (st : EngineState) (d : Date) :
    ((rotaStep rnd closure st d).1.staff = st.staff ∧
      ((rotaStep rnd closure st d).2.shift = "CLOSED" ∨
        (rotaStep rnd closure st d).2.shift = "UNASSIGNED")) ∨
    ∃ j ∈ btbList st.staff d,
      (rotaStep rnd closure st d).2.shift = (staffAt st.staff j).name ∧
      (rotaStep rnd closure st d).1.staff = st.staff.set j
        { staffAt st.staff j with
          assigned_dates := insertDate d (staffAt st.staff j).assigned_dates,
          shift_count := (staffAt st.staff j).shift_count + 1 } := by
  by_cases hc : d ∈ closure
  · left
    rw [rotaStep_closure hc]
    exact ⟨rfl, Or.inl rfl⟩
  · rw [rotaStep_nonclosure hc]
    rcases stepPick_spec rnd st d with ⟨_, _, he⟩ | ⟨pool, hne, hporig, he⟩
    · left
      rw [he]
      exact ⟨rfl, Or.inr rfl⟩
    · right
      refine ⟨selIdx rnd st pool, mem_pool_btb hporig (selIdx_mem hne), ?_, ?_⟩
      · rw [he, selectFrom_eq]
      · rw [he, selectFrom_eq]

theorem rotaRun_append (rnd : Nat → Nat) (closure : List Date) (st : EngineState)
    (l1 l2 : List Date) :
    rotaRun rnd closure st (l1 ++ l2) =
      ((rotaRun rnd closure (rotaRun rnd closure st l1).1 l2).1,
       (rotaRun rnd closure st l1).2 ++ (rotaRun rnd closure (rotaRun rnd closure st l1).1 l2).2) := by
  induction l1 generalizing st with
  | nil => rfl
  | cons d ds ih =>
    have h1 : rotaRun rnd closure st ((d :: ds) ++ l2) =
        ((rotaRun rnd closure (rotaStep rnd closure st d).1 (ds ++ l2)).1,
         (rotaStep rnd closure st d).2 ::
           (rotaRun rnd closure (rotaStep rnd closure st d).1 (ds ++ l2)).2) := rfl
    have h2 : rotaRun rnd closure st (d :: ds) =
        ((rotaRun rnd closure (rotaStep rnd closure st d).1 ds).1,
         (rotaStep rnd closure st d).2 :: (rotaRun rnd closure (rotaStep rnd closure st d).1 ds).2) :=
      rfl
    rw [h1, ih (rotaStep rnd closure st d).1, h2]
    simp

theorem stateAt_zero (rnd : Nat → Nat) (closure : List Date) (staff : List Staff)
    (dates : List Date) : stateAt rnd closure staff dates 0 = ⟨staff, none, 0⟩ := rfl

theorem stateAt_succ (rnd : Nat → Nat) (closure : List Date) (staff : List Staff)
    (dates : List Date) (i : Nat) (hi : i < dates.length) :
    stateAt rnd closure staff dates (i + 1) =
      (rotaStep rnd closure (stateAt rnd closure staff dates i) (dates.getD i default)).1 := by
  have ht : dates.take (i + 1) = dates.take i ++ [dates.getD i default] := by
    rw [List.take_succ, List.getElem?_eq_getElem hi]
    rw [List.getD_eq_getElem dates default hi]
    rfl
  unfold stateAt
  rw [ht, rotaRun_append]
  rfl

theorem generate_rota_rows (rnd : Nat → Nat) (dates : List Date) (staff : List Staff)
    (closure : List Date) :
    (generate_rota rnd dates staff closure).1 = (rotaRun rnd closure ⟨staff, none, 0⟩ dates).2 :=
  rfl

theorem generate_rota_staff (rnd : Nat → Nat) (dates : List Date) (staff : List Staff)
    (closure : List Date) :
    (generate_rota rnd dates staff closure).2 = (rotaRun rnd closure ⟨staff, none, 0⟩ dates).1.staff :=
  rfl

/-- Transport a property of names along preservation of the fixed fields. -/
theorem names_of_fixedPart {l1 l2 : List Staff}
    (h : l1.map fixedPart = l2.map fixedPart) :
    l1.map (fun s => s.name) = l2.map (fun s => s.name) := by
  have h2 := congrArg (List.map (fun p => p.1)) h
  simpa [List.map_map, Function.comp, fixedPart] using h2

theorem name_prop_preserved {l1 l2 : List Staff} (P : String → Prop)
    (hmap : l1.map (fun s => s.name) = l2.map (fun s => s.name))
    (h : ∀ s ∈ l2, P s.name) : ∀ s ∈ l1, P s.name := by
  intro s hs
  have h1 : s.name ∈ l1.map (fun s => s.name) := List.mem_map_of_mem _ hs
  rw [hmap] at h1
  obtain ⟨s2, hs2, he⟩ := List.mem_map.mp h1
  rw [← he]
  exact h s2 hs2

/-! Claim theorems. -/

/-- C9: with the random tie-break replaced by the deterministic always-pick-first
policy (every draw of the stream is 0, so `random.choice` returns the first
candidate), two runs of the engine on identical inputs produce identical
outputs, whatever residual stream state each run carries. -/
theorem deterministic_tiebreak (rnd1 rnd2 : Nat → Nat) (dates : List Date)
    (staff : List Staff) (closure : List Date)
    (h1 : ∀ n, rnd1 n = 0) (h2 : ∀ n, rnd2 n = 0) :
    generate_rota rnd1 dates staff closure = generate_rota rnd2 dates staff closure := by
  have he : rnd1 = rnd2 := funext (fun n => (h1 n).trans (h2 n).symm)
  rw [he]

theorem deterministic_tiebreak_witness :
    (∀ n : Nat, (fun _ : Nat => 0) n = 0) ∧
    generate_rota (fun _ => 0) [⟨2025, 1, 6⟩] [⟨"A", [0], [], [], 0⟩] [] =
      generate_rota (fun _ => 0) [⟨2025, 1, 6⟩] [⟨"A", [0], [], [], 0⟩] [] :=
  ⟨fun _ => rfl,
   deterministic_tiebreak (fun _ => 0) (fun _ => 0) [⟨2025, 1, 6⟩] [⟨"A", [0], [], [], 0⟩] []
     (fun _ => rfl) (fun _ => rfl)⟩

/-- C4: a working date that is in the closure set always yields a `CLOSED` row
whose notes start with `University Closure`, no staff record changes while it
is processed, and `last_assigned_staff` is reset. -/
theorem closure_precedence (rnd : Nat → Nat) (dates : List Date) (staff : List Staff)
    (closure : List Date) (i : Nat) (hi : i < dates.length)
    (hc : dates.getD i default ∈ closure) :
    ((generate_rota rnd dates staff closure).1.getD i default).shift = "CLOSED" ∧
    (∃ r, ((generate_rota rnd dates staff closure).1.getD i default).notes =
      "University Closure" ++ r) ∧
    (stateAt rnd closure staff dates (i + 1)).staff = (stateAt rnd closure staff dates i).staff ∧
    (stateAt rnd closure staff dates (i + 1)).last = none := by
  have he : (generate_rota rnd dates staff closure).1.getD i default =
      (rotaStep rnd closure (stateAt rnd closure staff dates i) (dates.getD i default)).2 := by
    rw [generate_rota_rows]
    exact rotaRun_getD rnd closure ⟨staff, none, 0⟩ dates i hi
  have hs := stateAt_succ rnd closure staff dates i hi
  rw [he, hs, rotaStep_closure hc]
  refine ⟨rfl, ?_, rfl, rfl⟩
  by_cases hhn : (holidayNames (stateAt rnd closure staff dates i).staff
      (dates.getD i default)).isEmpty = true
  · refine ⟨"", ?_⟩
    show (if (holidayNames (stateAt rnd closure staff dates i).staff
        (dates.getD i default)).isEmpty then "University Closure"
      else "University Closure" ++ " | On Holiday: " ++ String.intercalate ", "
        (holidayNames (stateAt rnd closure staff dates i).staff (dates.getD i default))) =
      "University Closure" ++ ""
    rw [if_pos hhn, String.append_empty]
  · refine ⟨" | On Holiday: " ++ String.intercalate ", "
      (holidayNames (stateAt rnd closure staff dates i).staff (dates.getD i default)), ?_⟩
    show (if (holidayNames (stateAt rnd closure staff dates i).staff
        (dates.getD i default)).isEmpty then "University Closure"
      else "University Closure" ++ " | On Holiday: " ++ String.intercalate ", "
        (holidayNames (stateAt rnd closure staff dates i).staff (dates.getD i default))) = _
    rw [if_neg hhn, String.append_assoc]

theorem closure_precedence_witness :
    (0 < ([⟨2025, 1, 6⟩] : List Date).length ∧
      ([⟨2025, 1, 6⟩] : List Date).getD 0 default ∈ ([⟨2025, 1, 6⟩] : List Date)) ∧
    (((generate_rota (fun _ => 0) [⟨2025, 1, 6⟩] [⟨"A", [0], [], [], 0⟩]
        [⟨2025, 1, 6⟩]).1.getD 0 default).shift = "CLOSED" ∧
      (∃ r, ((generate_rota (fun _ => 0) [⟨2025, 1, 6⟩] [⟨"A", [0], [], [], 0⟩]
        [⟨2025, 1, 6⟩]).1.getD 0 default).notes = "University Closure" ++ r) ∧
      (stateAt (fun _ => 0) [⟨2025, 1, 6⟩] [⟨"A", [0], [], [], 0⟩] [⟨2025, 1, 6⟩] (0 + 1)).staff =
        (stateAt (fun _ => 0) [⟨2025, 1, 6⟩] [⟨"A", [0], [], [], 0⟩] [⟨2025, 1, 6⟩] 0).staff ∧
      (stateAt (fun _ => 0) [⟨2025, 1, 6⟩] [⟨"A", [0], [], [], 0⟩] [⟨2025, 1, 6⟩] (0 + 1)).last =
        none) :=
  ⟨⟨by decide, by decide⟩,
   closure_precedence (fun _ => 0) [⟨2025, 1, 6⟩] [⟨"A", [0], [], [], 0⟩] [⟨2025, 1, 6⟩] 0
     (by decide) (by decide)⟩

/-- C5: on a non-closure working date the row is `UNASSIGNED` exactly when no
staff member is available that weekday and off holiday; when someone is, a
staff name is assigned; and the `UNASSIGNED` outcome leaves the registry
untouched. -/
theorem unassigned_iff_no_eligible (rnd : Nat → Nat) (closure : List Date) (st : EngineState)
    (d : Date) (hc : d ∉ closure) (hsent : ∀ s ∈ st.staff, s.name ≠ "UNASSIGNED") :
    ((rotaStep rnd closure st d).2.shift = "UNASSIGNED" ↔
      ¬ ∃ s ∈ st.staff, weekday d ∈ s.office_days ∧ d ∉ s.holidays) ∧
    ((∃ s ∈ st.staff, weekday d ∈ s.office_days ∧ d ∉ s.holidays) →
      ∃ s ∈ st.staff, (rotaStep rnd closure st d).2.shift = s.name) ∧
    ((rotaStep rnd closure st d).2.shift = "UNASSIGNED" →
      (rotaStep rnd closure st d).1.staff = st.staff) := by
  rw [rotaStep_nonclosure hc]
  rcases stepPick_spec rnd st d with ⟨_, hbt, he⟩ | ⟨pool, hne, hporig, he⟩
  · rw [he]
    refine ⟨⟨fun _ => btbList_eq_nil_iff.mp hbt, fun _ => rfl⟩, ?_, fun _ => rfl⟩
    intro hex
    exact absurd hex (btbList_eq_nil_iff.mp hbt)
  · rw [he, selectFrom_eq]
    have hj : selIdx rnd st pool ∈ btbList st.staff d := mem_pool_btb hporig (selIdx_mem hne)
    obtain ⟨hlt, hoff, hhol⟩ := mem_btbList.mp hj
    have hmem : staffAt st.staff (selIdx rnd st pool) ∈ st.staff := staffAt_mem hlt
    have hname : (staffAt st.staff (selIdx rnd st pool)).name ≠ "UNASSIGNED" := hsent _ hmem
    refine ⟨⟨fun h => absurd h hname, fun hno => ?_⟩, fun _ => ⟨_, hmem, rfl⟩,
      fun h => absurd h hname⟩
    exact absurd ⟨staffAt st.staff (selIdx rnd st pool), hmem, hoff, hhol⟩ hno

theorem unassigned_iff_no_eligible_witness :
    ((⟨2025, 1, 6⟩ : Date) ∉ ([] : List Date) ∧
      (∀ s ∈ ([⟨"A", [5], [], [], 0⟩] : List Staff), s.name ≠ "UNASSIGNED")) ∧
    (((rotaStep (fun _ => 0) [] ⟨[⟨"A", [5], [], [], 0⟩], none, 0⟩ ⟨2025, 1, 6⟩).2.shift =
        "UNASSIGNED" ↔
      ¬ ∃ s ∈ ([⟨"A", [5], [], [], 0⟩] : List Staff),
        weekday ⟨2025, 1, 6⟩ ∈ s.office_days ∧ (⟨2025, 1, 6⟩ : Date) ∉ s.holidays) ∧
    ((∃ s ∈ ([⟨"A", [5], [], [], 0⟩] : List Staff),
        weekday ⟨2025, 1, 6⟩ ∈ s.office_days ∧ (⟨2025, 1, 6⟩ : Date) ∉ s.holidays) →
      ∃ s ∈ ([⟨"A", [5], [], [], 0⟩] : List Staff),
        (rotaStep (fun _ => 0) [] ⟨[⟨"A", [5], [], [], 0⟩], none, 0⟩ ⟨2025, 1, 6⟩).2.shift =
          s.name) ∧
    ((rotaStep (fun _ => 0) [] ⟨[⟨"A", [5], [], [], 0⟩], none, 0⟩ ⟨2025, 1, 6⟩).2.shift =
        "UNASSIGNED" →
      (rotaStep (fun _ => 0) [] ⟨[⟨"A", [5], [], [], 0⟩], none, 0⟩ ⟨2025, 1, 6⟩).1.staff =
        [⟨"A", [5], [], [], 0⟩])) :=
  ⟨⟨by decide, by decide⟩,
   unassigned_iff_no_eligible (fun _ => 0) [] ⟨[⟨"A", [5], [], [], 0⟩], none, 0⟩ ⟨2025, 1, 6⟩
     (by decide) (by decide)⟩

theorem avoid_all_same {n : String} {staff : List Staff} {P pool : List Nat} {j : Nat}
    (hpo : pool = applyAvoid (some n) staff P) (hj : j ∈ pool)
    (hjn : (staffAt staff j).name = n) :
    ∀ i ∈ P, (staffAt staff i).name = n := by
  rcases applyAvoid_spec (some n) staff P with ⟨_, hfil⟩ | ⟨n', hn', heq, _⟩
  · intro i hi
    have h2 := List.filter_eq_nil_iff.mp (hfil n rfl) i hi
    simpa using h2
  · obtain rfl : n = n' := Option.some.inj hn'
    rw [hpo, heq] at hj
    have h2 := (List.mem_filter.mp hj).2
    simp at h2
    exact absurd hjn h2

/-- C7: whenever the produced row repeats the previously assigned person, that
person was the only name in the relevant pool (primary, or fallback when the
primary pool is empty): the avoidance filter drops the previous person exactly
when somebody else remains. -/
theorem consecutive_avoidance (rnd : Nat → Nat) (closure : List Date) (st : EngineState)
    (d : Date) (n : String) (hlast : st.last = some n) (hc : d ∉ closure)
    (hn : n ≠ "UNASSIGNED") (hsh : (rotaStep rnd closure st d).2.shift = n) :
    ∀ i ∈ (if availList st.staff d = [] then btbList st.staff d else availList st.staff d),
      (staffAt st.staff i).name = n := by
  rw [rotaStep_nonclosure hc] at hsh
  rcases stepPick_spec rnd st d with ⟨_, _, he⟩ | ⟨pool, hne, hporig, he⟩
  · rw [he] at hsh
    exact absurd (show n = "UNASSIGNED" from hsh.symm) hn
  · rw [he, selectFrom_eq] at hsh
    have hjn : (staffAt st.staff (selIdx rnd st pool)).name = n := hsh
    have hjp : selIdx rnd st pool ∈ pool := selIdx_mem hne
    rcases hporig with hpo | ⟨hav, hpo⟩
    · rw [hlast] at hpo
      have havne : availList st.staff d ≠ [] := by
        intro h0
        rw [h0] at hpo
        rw [applyAvoid_eq_nil_iff.mpr rfl] at hpo
        exact hne hpo
      rw [if_neg havne]
      exact avoid_all_same hpo hjp hjn
    · rw [hlast] at hpo
      rw [if_pos hav]
      exact avoid_all_same hpo hjp hjn

theorem consecutive_avoidance_witness :
    ((⟨[⟨"A", [0], [], [], 1⟩], some "A", 1⟩ : EngineState).last = some "A" ∧
      (⟨2025, 1, 6⟩ : Date) ∉ ([] : List Date) ∧ "A" ≠ "UNASSIGNED" ∧
      (rotaStep (fun _ => 0) [] ⟨[⟨"A", [0], [], [], 1⟩], some "A", 1⟩ ⟨2025, 1, 6⟩).2.shift =
        "A") ∧
    (∀ i ∈ (if availList [⟨"A", [0], [], [], 1⟩] ⟨2025, 1, 6⟩ = [] then
        btbList [⟨"A", [0], [], [], 1⟩] ⟨2025, 1, 6⟩
      else availList [⟨"A", [0], [], [], 1⟩] ⟨2025, 1, 6⟩),
      (staffAt [⟨"A", [0], [], [], 1⟩] i).name = "A") :=
  ⟨⟨by decide, by decide, by decide, by decide⟩,
   consecutive_avoidance (fun _ => 0) [] ⟨[⟨"A", [0], [], [], 1⟩], some "A", 1⟩ ⟨2025, 1, 6⟩
     "A" (by decide) (by decide) (by decide) (by decide)⟩

theorem toOrdinal_mk_lt {y m i j : Nat} (h : i < j) :
    toOrdinal ⟨y, m, i + 1⟩ < toOrdinal ⟨y, m, j + 1⟩ := by
  unfold toOrdinal
  simp only
  omega

theorem generate_dates_sorted (y m : Nat) :
    (generate_dates y m).Pairwise (fun a b => toOrdinal a < toOrdinal b) := by
  unfold generate_dates generate_all_dates
  apply List.Pairwise.filter
  rw [List.pairwise_map]
  exact (List.pairwise_lt_range (daysInMonth y m)).imp (fun h => toOrdinal_mk_lt h)

theorem mem_generate_dates {y m : Nat} {d : Date} :
    d ∈ generate_dates y m ↔
      d.year = y ∧ d.month = m ∧ 1 ≤ d.day ∧ d.day ≤ daysInMonth y m ∧ weekday d < 5 := by
  unfold generate_dates generate_all_dates
  rw [List.mem_filter]
  simp only [List.mem_map, List.mem_range, decide_eq_true_iff]
  constructor
  · rintro ⟨⟨i, hi, rfl⟩, hw⟩
    refine ⟨rfl, rfl, ?_, ?_, hw⟩
    · show 1 ≤ i + 1
      omega
    · show i + 1 ≤ daysInMonth y m
      omega
  · rintro ⟨hy, hm, h1, h2, hw⟩
    refine ⟨⟨d.day - 1, by omega, ?_⟩, hw⟩
    obtain ⟨dy, dm, dd⟩ := d
    simp only at hy hm h1 ⊢
    subst hy
    subst hm
    congr 1
    omega

/-- C2: the engine's output has exactly one row per working (Mon-Fri) day of the
month, in the order of the working-date sequence; that sequence is strictly
ascending (hence duplicate-free) and contains exactly the weekday dates of the
month, none skipped. -/
theorem completeness (rnd : Nat → Nat) (staff : List Staff) (closure : List Date)
    (y m : Nat) (hy : 1 ≤ y) (hm1 : 1 ≤ m) (hm2 : m ≤ 12) :
    (generate_rota rnd (generate_dates y m) staff closure).1.map (fun e => e.date) =
      (generate_dates y m).map formatDate ∧
    (generate_dates y m).Pairwise (fun a b => toOrdinal a < toOrdinal b) ∧
    (generate_dates y m).Nodup ∧
    ∀ d : Date, d ∈ generate_dates y m ↔
      d.year = y ∧ d.month = m ∧ 1 ≤ d.day ∧ d.day ≤ daysInMonth y m ∧ weekday d < 5 := by
  refine ⟨?_, generate_dates_sorted y m, ?_, fun d => mem_generate_dates⟩
  · rw [generate_rota_rows]
    exact rotaRun_dates rnd closure ⟨staff, none, 0⟩ (generate_dates y m)
  · exact (generate_dates_sorted y m).imp
      (fun hlt => fun he => absurd (he ▸ hlt) (lt_irrefl _))

theorem completeness_witness :
    (1 ≤ 2025 ∧ 1 ≤ 3 ∧ 3 ≤ 12) ∧
    ((generate_rota (fun _ => 0) (generate_dates 2025 3) [⟨"A", [0], [], [], 0⟩]
        []).1.map (fun e => e.date) = (generate_dates 2025 3).map formatDate ∧
      (generate_dates 2025 3).Pairwise (fun a b => toOrdinal a < toOrdinal b) ∧
      (generate_dates 2025 3).Nodup ∧
      ∀ d : Date, d ∈ generate_dates 2025 3 ↔
        d.year = 2025 ∧ d.month = 3 ∧ 1 ≤ d.day ∧ d.day ≤ daysInMonth 2025 3 ∧
          weekday d < 5) :=
  ⟨⟨by decide, by decide, by decide⟩,
   completeness (fun _ => 0) [⟨"A", [0], [], [], 0⟩] [] 2025 3 (by decide) (by decide)
     (by decide)⟩

theorem rotaStep_load (rnd : Nat → Nat) (closure : List Date) (st : EngineState) (d : Date)
    (hsent : ∀ s ∈ st.staff, s.name ≠ "CLOSED" ∧ s.name ≠ "UNASSIGNED") :
    ((rotaStep rnd closure st d).1.staff.map (fun s => s.shift_count)).sum =
      (st.staff.map (fun s => s.shift_count)).sum +
        (if (rotaStep rnd closure st d).2.shift ≠ "CLOSED" ∧
            (rotaStep rnd closure st d).2.shift ≠ "UNASSIGNED" then 1 else 0) := by
  rcases rotaStep_cases rnd closure st d with ⟨hst, hsh⟩ | ⟨j, hj, hsh, hst⟩
  · rw [hst]
    rcases hsh with h | h <;> rw [h] <;> simp
  · obtain ⟨hlt, _, _⟩ := mem_btbList.mp hj
    have hname := hsent _ (staffAt_mem hlt)
    rw [hst, hsh, if_pos ⟨hname.1, hname.2⟩]
    exact sum_map_set_succ _ st.staff j _ hlt rfl

theorem rotaRun_load (rnd : Nat → Nat) (closure : List Date) (ds : List Date) :
    ∀ st : EngineState, (∀ s ∈ st.staff, s.name ≠ "CLOSED" ∧ s.name ≠ "UNASSIGNED") →
    ((rotaRun rnd closure st ds).1.staff.map (fun s => s.shift_count)).sum =
      (st.staff.map (fun s => s.shift_count)).sum +
      ((rotaRun rnd closure st ds).2.filter
        (fun e => !(e.shift == "CLOSED") && !(e.shift == "UNASSIGNED"))).length := by
  induction ds with
  | nil =>
    intro st _
    simp [rotaRun]
  | cons d ds ih =>
    intro st hsent
    have hrun : rotaRun rnd closure st (d :: ds) =
        ((rotaRun rnd closure (rotaStep rnd closure st d).1 ds).1,
         (rotaStep rnd closure st d).2 :: (rotaRun rnd closure (rotaStep rnd closure st d).1 ds).2) :=
      rfl
    rw [hrun]
    dsimp only
    have hmapn : (rotaStep rnd closure st d).1.staff.map (fun s => s.name) =
        st.staff.map (fun s => s.name) := names_of_fixedPart rotaStep_fixedPart
    have hsent' : ∀ s ∈ (rotaStep rnd closure st d).1.staff,
        s.name ≠ "CLOSED" ∧ s.name ≠ "UNASSIGNED" :=
      name_prop_preserved (fun n => n ≠ "CLOSED" ∧ n ≠ "UNASSIGNED") hmapn hsent
    have hih := ih (rotaStep rnd closure st d).1 hsent'
    have hstep := rotaStep_load rnd closure st d hsent
    simp only [List.filter_cons]
    by_cases hp : (!((rotaStep rnd closure st d).2.shift == "CLOSED") &&
        !((rotaStep rnd closure st d).2.shift == "UNASSIGNED")) = true
    · rw [if_pos hp]
      have hprop : (rotaStep rnd closure st d).2.shift ≠ "CLOSED" ∧
          (rotaStep rnd closure st d).2.shift ≠ "UNASSIGNED" := by
        simpa using hp
      rw [if_pos hprop] at hstep
      simp only [List.length_cons]
      omega
    · rw [if_neg hp]
      have hprop : ¬((rotaStep rnd closure st d).2.shift ≠ "CLOSED" ∧
          (rotaStep rnd closure st d).2.shift ≠ "UNASSIGNED") := by
        intro hco
        exact hp (by simpa using hco)
      rw [if_neg hprop] at hstep
      omega

/-- C6: starting from reset per-run state, the final shift counts sum to the
number of rows whose shift is neither `CLOSED` nor `UNASSIGNED`. -/
theorem load_conservation (rnd : Nat → Nat) (dates : List Date) (staff : List Staff)
    (closure : List Date)
    (hreset : ∀ s ∈ staff, s.assigned_dates = [] ∧ s.shift_count = 0)
    (hsent : ∀ s ∈ staff, s.name ≠ "CLOSED" ∧ s.name ≠ "UNASSIGNED") :
    ((generate_rota rnd dates staff closure).2.map (fun s => s.shift_count)).sum =
      ((generate_rota rnd dates staff closure).1.filter
        (fun e => !(e.shift == "CLOSED") && !(e.shift == "UNASSIGNED"))).length := by
  rw [generate_rota_rows, generate_rota_staff]
  rw [rotaRun_load rnd closure dates ⟨staff, none, 0⟩ hsent]
  have h0 : (staff.map (fun s => s.shift_count)).sum = 0 := by
    apply List.sum_eq_zero
    intro x hx
    obtain ⟨s, hs, he⟩ := List.mem_map.mp hx
    rw [← he]
    exact (hreset s hs).2
  have hst : (⟨staff, none, 0⟩ : EngineState).staff = staff := rfl
  rw [hst, h0]
  omega

theorem load_conservation_witness :
    ((∀ s ∈ ([⟨"A", [0, 2], [], [], 0⟩, ⟨"B", [0], [], [], 0⟩] : List Staff),
        s.assigned_dates = [] ∧ s.shift_count = 0) ∧
      (∀ s ∈ ([⟨"A", [0, 2], [], [], 0⟩, ⟨"B", [0], [], [], 0⟩] : List Staff),
        s.name ≠ "CLOSED" ∧ s.name ≠ "UNASSIGNED")) ∧
    ((generate_rota (fun _ => 0) [⟨2025, 1, 6⟩, ⟨2025, 1, 7⟩, ⟨2025, 1, 8⟩]
        [⟨"A", [0, 2], [], [], 0⟩, ⟨"B", [0], [], [], 0⟩]
        [⟨2025, 1, 7⟩]).2.map (fun s => s.shift_count)).sum =
      ((generate_rota (fun _ => 0) [⟨2025, 1, 6⟩, ⟨2025, 1, 7⟩, ⟨2025, 1, 8⟩]
        [⟨"A", [0, 2], [], [], 0⟩, ⟨"B", [0], [], [], 0⟩]
        [⟨2025, 1, 7⟩]).1.filter
          (fun e => !(e.shift == "CLOSED") && !(e.shift == "UNASSIGNED"))).length :=
  ⟨⟨by decide, by decide⟩,
   load_conservation (fun _ => 0) [⟨2025, 1, 6⟩, ⟨2025, 1, 7⟩, ⟨2025, 1, 8⟩]
     [⟨"A", [0, 2], [], [], 0⟩, ⟨"B", [0], [], [], 0⟩] [⟨2025, 1, 7⟩]
     (by decide) (by decide)⟩

theorem rotaRun_inv (rnd : Nat → Nat) (closure : List Date) (ds : List Date) :
    ∀ st : EngineState,
    (∀ s ∈ st.staff, s.assigned_dates.length = s.shift_count ∧ ∀ d ∈ ds, d ∉ s.assigned_dates) →
    ds.Nodup →
    ∀ s ∈ (rotaRun rnd closure st ds).1.staff, s.assigned_dates.length = s.shift_count := by
  induction ds with
  | nil =>
    intro st h _ s hs
    exact (h s hs).1
  | cons d ds ih =>
    intro st h hnodup
    have hrun : (rotaRun rnd closure st (d :: ds)).1 =
        (rotaRun rnd closure (rotaStep rnd closure st d).1 ds).1 := rfl
    rw [hrun]
    apply ih (rotaStep rnd closure st d).1 ?_ (List.nodup_cons.mp hnodup).2
    intro s hs
    rcases rotaStep_cases rnd closure st d with ⟨hst, _⟩ | ⟨j, hj, _, hst⟩
    · rw [hst] at hs
      obtain ⟨hlen, hnot⟩ := h s hs
      exact ⟨hlen, fun d' hd' => hnot d' (List.mem_cons_of_mem d hd')⟩
    · rw [hst] at hs
      rcases List.mem_or_eq_of_mem_set hs with hmem | he
      · obtain ⟨hlen, hnot⟩ := h s hmem
        exact ⟨hlen, fun d' hd' => hnot d' (List.mem_cons_of_mem d hd')⟩
      · obtain ⟨hlt, _, _⟩ := mem_btbList.mp hj
        obtain ⟨hlen, hnot⟩ := h (staffAt st.staff j) (staffAt_mem hlt)
        have hdni : d ∉ (staffAt st.staff j).assigned_dates := hnot d (List.mem_cons_self d ds)
        subst he
        constructor
        · show (insertDate d (staffAt st.staff j).assigned_dates).length =
            (staffAt st.staff j).shift_count + 1
          rw [insertDate, if_neg hdni]
          simp [hlen]
        · intro d' hd'
          show d' ∉ insertDate d (staffAt st.staff j).assigned_dates
          rw [insertDate, if_neg hdni]
          intro hmem'
          rcases List.mem_cons.mp hmem' with he' | hmem'
          · rw [he'] at hd'
            exact (List.nodup_cons.mp hnodup).1 hd'
          · exact hnot d' (List.mem_cons_of_mem d hd') hmem'

/-- C8: with both mutable fields reset at run start and a duplicate-free
working-date sequence, every staff member satisfies
`len(assignedDates) == shiftCount` after each processed prefix of the run. -/
theorem assigned_count_invariant (rnd : Nat → Nat) (dates : List Date) (staff : List Staff)
    (closure : List Date)
    (hreset : ∀ s ∈ staff, s.assigned_dates = [] ∧ s.shift_count = 0)
    (hnodup : dates.Nodup) (i : Nat) (hi : i ≤ dates.length) :
    ∀ s ∈ (stateAt rnd closure staff dates i).staff,
      s.assigned_dates.length = s.shift_count := by
  unfold stateAt
  apply rotaRun_inv rnd closure (dates.take i) ⟨staff, none, 0⟩
  · intro s hs
    obtain ⟨ha, hc⟩ := hreset s hs
    refine ⟨by rw [ha, hc]; rfl, ?_⟩
    intro d' _ hmem
    rw [ha] at hmem
    cases hmem
  · exact hnodup.sublist (List.take_sublist i dates)

theorem assigned_count_invariant_witness :
    ((∀ s ∈ ([⟨"A", [0, 1], [], [], 0⟩] : List Staff),
        s.assigned_dates = [] ∧ s.shift_count = 0) ∧
      ([⟨2025, 1, 6⟩, ⟨2025, 1, 7⟩] : List Date).Nodup ∧
      2 ≤ ([⟨2025, 1, 6⟩, ⟨2025, 1, 7⟩] : List Date).length) ∧
    (∀ s ∈ (stateAt (fun _ => 0) [] [⟨"A", [0, 1], [], [], 0⟩]
        [⟨2025, 1, 6⟩, ⟨2025, 1, 7⟩] 2).staff,
      s.assigned_dates.length = s.shift_count) :=
  ⟨⟨by decide, by decide, by decide⟩,
   assigned_count_invariant (fun _ => 0) [⟨2025, 1, 6⟩, ⟨2025, 1, 7⟩]
     [⟨"A", [0, 1], [], [], 0⟩] [] (by decide) (by decide) 2 (by decide)⟩

/-- The fairness property exactly as claimed: at every assignment step, the
chosen staff member's `shift_count` is at most that of every staff member
eligible on that date (available that weekday, not on holiday, not already
assigned that date). -/
def fairness_claim (rnd : Nat → Nat) (dates : List Date) (staff : List Staff)
    (closure : List Date) : Prop :=
  ∀ i, i < dates.length →
    ∀ t ∈ (stateAt rnd closure staff dates i).staff,
      ((rotaRun rnd closure ⟨staff, none, 0⟩ dates).2.getD i default).shift = t.name →
      ∀ s ∈ (stateAt rnd closure staff dates i).staff,
        weekday (dates.getD i default) ∈ s.office_days ∧
          dates.getD i default ∉ s.holidays ∧ dates.getD i default ∉ s.assigned_dates →
        t.shift_count ≤ s.shift_count

/-- C3 counterexample: on Mon-Thu 6-9 Jan 2025 with A available Wed-Thu and B
available Mon-Thu, the run (first-candidate tie-break) assigns B, B, A, and
then on Thursday the avoidance filter drops A (assigned Wednesday, count 1)
and chooses B (count 2) although A is eligible with strictly lower count. -/
theorem fairness_claim_cex :
    ¬ fairness_claim (fun _ => 0) [⟨2025, 1, 6⟩, ⟨2025, 1, 7⟩, ⟨2025, 1, 8⟩, ⟨2025, 1, 9⟩]
      [⟨"A", [2, 3], [], [], 0⟩, ⟨"B", [0, 1, 2, 3], [], [], 0⟩] [] := by
  unfold fairness_claim
  decide

theorem step_fairness (rnd : Nat → Nat) (closure : List Date) (st : EngineState) (d : Date)
    (hnodup : (st.staff.map (fun s => s.name)).Nodup)
    (hsent : ∀ s ∈ st.staff, s.name ≠ "CLOSED" ∧ s.name ≠ "UNASSIGNED")
    (t : Staff) (ht : t ∈ st.staff) (hsh : (rotaStep rnd closure st d).2.shift = t.name)
    (s : Staff) (hs : s ∈ st.staff)
    (helig : weekday d ∈ s.office_days ∧ d ∉ s.holidays ∧ d ∉ s.assigned_dates)
    (hlast : ∀ n, st.last = some n → s.name ≠ n) :
    t.shift_count ≤ s.shift_count := by
  by_cases hc : d ∈ closure
  · rw [rotaStep_closure hc] at hsh
    exact absurd (show t.name = "CLOSED" from hsh.symm) (hsent t ht).1
  · rw [rotaStep_nonclosure hc] at hsh
    rcases stepPick_spec rnd st d with ⟨_, _, he⟩ | ⟨pool, hne, hporig, he⟩
    · rw [he] at hsh
      exact absurd (show t.name = "UNASSIGNED" from hsh.symm) (hsent t ht).2
    · rw [he, selectFrom_eq] at hsh
      have hjp : selIdx rnd st pool ∈ pool := selIdx_mem hne
      have hjb : selIdx rnd st pool ∈ btbList st.staff d := mem_pool_btb hporig hjp
      have hjs : staffAt st.staff (selIdx rnd st pool) ∈ st.staff :=
        staffAt_mem (mem_btbList.mp hjb).1
      have hte : staffAt st.staff (selIdx rnd st pool) = t :=
        List.inj_on_of_nodup_map hnodup hjs ht hsh
      obtain ⟨i, hilt, hie⟩ := List.getElem_of_mem hs
      have hsi : staffAt st.staff i = s := by
        rw [staffAt, List.getD_eq_getElem st.staff default hilt, hie]
      have helig' : weekday d ∈ (staffAt st.staff i).office_days ∧
          d ∉ (staffAt st.staff i).holidays ∧ d ∉ (staffAt st.staff i).assigned_dates := by
        rw [hsi]
        exact helig
      have hiav : i ∈ availList st.staff d :=
        mem_availList.mpr ⟨hilt, helig'.1, helig'.2.1, helig'.2.2⟩
      rcases hporig with hpo | ⟨hav, hpo⟩
      · have hnm : ∀ n, st.last = some n → (staffAt st.staff i).name ≠ n := by
          intro n hn
          rw [hsi]
          exact hlast n hn
        have hiin : i ∈ applyAvoid st.last st.staff (availList st.staff d) :=
          mem_applyAvoid_of hiav hnm
        rw [← hpo] at hiin
        have hfin := @selIdx_count_le rnd st pool i hne hiin
        rw [hte, hsi] at hfin
        exact hfin
      · rw [hav] at hiav
        cases hiav

/-- C3 (amended): at every assignment step, the chosen staff member's
`shift_count` is at most that of every eligible staff member other than the
person assigned on the previous working day, who may be passed over by the
consecutive-avoidance filter despite a strictly lower count. -/
theorem fairness_min_choice (rnd : Nat → Nat) (dates : List Date) (staff : List Staff)
    (closure : List Date)
    (hnodup : (staff.map (fun s => s.name)).Nodup)
    (hsent : ∀ s ∈ staff, s.name ≠ "CLOSED" ∧ s.name ≠ "UNASSIGNED")
    (i : Nat) (hi : i < dates.length)
    (t : Staff) (ht : t ∈ (stateAt rnd closure staff dates i).staff)
    (hsh : ((generate_rota rnd dates staff closure).1.getD i default).shift = t.name)
    (s : Staff) (hs : s ∈ (stateAt rnd closure staff dates i).staff)
    (helig : weekday (dates.getD i default) ∈ s.office_days ∧
      dates.getD i default ∉ s.holidays ∧ dates.getD i default ∉ s.assigned_dates)
    (hlast : ∀ n, (stateAt rnd closure staff dates i).last = some n → s.name ≠ n) :
    t.shift_count ≤ s.shift_count := by
  have he : (generate_rota rnd dates staff closure).1.getD i default =
      (rotaStep rnd closure (stateAt rnd closure staff dates i) (dates.getD i default)).2 := by
    rw [generate_rota_rows]
    exact rotaRun_getD rnd closure ⟨staff, none, 0⟩ dates i hi
  rw [he] at hsh
  have hmapf : (stateAt rnd closure staff dates i).staff.map fixedPart =
      staff.map fixedPart := by
    unfold stateAt
    have h2 := rotaRun_fixedPart rnd closure ⟨staff, none, 0⟩ (dates.take i)
    exact h2
  have hmapn := names_of_fixedPart hmapf
  have hnodup' : ((stateAt rnd closure staff dates i).staff.map (fun s => s.name)).Nodup := by
    rw [hmapn]
    exact hnodup
  have hsent' := name_prop_preserved (fun n => n ≠ "CLOSED" ∧ n ≠ "UNASSIGNED") hmapn hsent
  exact step_fairness rnd closure _ _ hnodup' hsent' t ht hsh s hs helig hlast

theorem fairness_min_choice_witness :
    ((([⟨"A", [0], [], [], 0⟩] : List Staff).map (fun s => s.name)).Nodup ∧
      (∀ s ∈ ([⟨"A", [0], [], [], 0⟩] : List Staff),
        s.name ≠ "CLOSED" ∧ s.name ≠ "UNASSIGNED") ∧
      0 < ([⟨2025, 1, 6⟩] : List Date).length ∧
      (⟨"A", [0], [], [], 0⟩ : Staff) ∈
        (stateAt (fun _ => 0) [] [⟨"A", [0], [], [], 0⟩] [⟨2025, 1, 6⟩] 0).staff ∧
      ((generate_rota (fun _ => 0) [⟨2025, 1, 6⟩] [⟨"A", [0], [], [], 0⟩] []).1.getD 0
        default).shift = (⟨"A", [0], [], [], 0⟩ : Staff).name ∧
      (weekday (([⟨2025, 1, 6⟩] : List Date).getD 0 default) ∈
          (⟨"A", [0], [], [], 0⟩ : Staff).office_days ∧
        ([⟨2025, 1, 6⟩] : List Date).getD 0 default ∉ (⟨"A", [0], [], [], 0⟩ : Staff).holidays ∧
        ([⟨2025, 1, 6⟩] : List Date).getD 0 default ∉
          (⟨"A", [0], [], [], 0⟩ : Staff).assigned_dates) ∧
      (∀ n, (stateAt (fun _ => 0) [] [⟨"A", [0], [], [], 0⟩] [⟨2025, 1, 6⟩] 0).last = some n →
        (⟨"A", [0], [], [], 0⟩ : Staff).name ≠ n)) ∧
    (⟨"A", [0], [], [], 0⟩ : Staff).shift_count ≤ (⟨"A", [0], [], [], 0⟩ : Staff).shift_count :=
  ⟨⟨by decide, by decide, by decide, by decide, by decide, by decide, by decide⟩,
   fairness_min_choice (fun _ => 0) [⟨2025, 1, 6⟩] [⟨"A", [0], [], [], 0⟩] []
     (by decide) (by decide) 0 (by decide) ⟨"A", [0], [], [], 0⟩ (by decide) (by decide)
     ⟨"A", [0], [], [], 0⟩ (by decide) (by decide) (by decide)⟩

theorem digitsVal_two (x y : Nat) : digitsVal [x, y] = 10 * x + y := by
  show (0 * 10 + x) * 10 + y = 10 * x + y
  omega

theorem digitsVal_four (x y z w : Nat) :
    digitsVal [x, y, z, w] = 1000 * x + 100 * y + 10 * z + w := by
  show (((0 * 10 + x) * 10 + y) * 10 + z) * 10 + w = 1000 * x + 100 * y + 10 * z + w
  omega

theorem takeWhile_digits_two (a b : Nat) (rest : List Nat) (ha : a < 10) (hb : b < 10) :
    (a :: b :: 10 :: rest).takeWhile (fun t => decide (t < 10)) = [a, b] := by
  simp [List.takeWhile_cons, ha, hb]

theorem parseDate_digits (a b c e f g h i : Nat) (ha : a < 10) (hb : b < 10) (hc : c < 10)
    (he : e < 10) (hf : f < 10) (hg : g < 10) (hh : h < 10) (hi : i < 10) :
    parseDate [a, b, 10, c, e, 10, f, g, h, i] =
      if 1 ≤ digitsVal [f, g, h, i] ∧ 1 ≤ digitsVal [c, e] ∧ digitsVal [c, e] ≤ 12 ∧
          1 ≤ digitsVal [a, b] ∧
          digitsVal [a, b] ≤ daysInMonth (digitsVal [f, g, h, i]) (digitsVal [c, e])
        then some ⟨digitsVal [f, g, h, i], digitsVal [c, e], digitsVal [a, b]⟩ else none := by
  simp only [parseDate]
  rw [takeWhile_digits_two a b _ ha hb]
  norm_num
  rw [takeWhile_digits_two c e _ hc he]
  norm_num
  simp [ha, hb, hc, he, hf, hg, hh, hi]

/-- Round trip: formatting a representable date with `'%d/%m/%Y'` and parsing
the result with the same format recovers the date. -/
theorem parse_format (dt : Date) (h : ValidDate dt) : parseDate (formatDate dt) = some dt := by
  obtain ⟨y, m, d⟩ := dt
  unfold ValidDate at h
  dsimp only at h
  obtain ⟨hy1, hy2, hm1, hm2, hd1, hd2⟩ := h
  have hdm : daysInMonth y m ≤ 31 := by
    unfold daysInMonth
    split_ifs <;> omega
  have hd31 : d ≤ 31 := le_trans hd2 hdm
  have hfd : formatDate ⟨y, m, d⟩ =
      [d / 10, d % 10, 10, m / 10, m % 10, 10, y / 1000, y / 100 % 10, y / 10 % 10, y % 10] := rfl
  rw [hfd, parseDate_digits _ _ _ _ _ _ _ _ (by omega) (by omega) (by omega) (by omega)
    (by omega) (by omega) (by omega) (by omega)]
  rw [digitsVal_two, digitsVal_two, digitsVal_four]
  have hyv : 1000 * (y / 1000) + 100 * (y / 100 % 10) + 10 * (y / 10 % 10) + y % 10 = y := by
    omega
  have hmv : 10 * (m / 10) + m % 10 = m := by omega
  have hdv : 10 * (d / 10) + d % 10 = d := by omega
  rw [hyv, hmv, hdv, if_pos ⟨hy1, hm1, hm2, hd1, hd2⟩]

/-- C10: every date string the engine writes (formatted with `'%d/%m/%Y'` from a
representable date) parses back under the same format to the original date, so
the validator never emits an invalid-date-format warning on engine output. -/
theorem date_roundtrip_no_invalid (rnd : Nat → Nat) (dates : List Date) (staff : List Staff)
    (closure : List Date) (hvalid : ∀ d ∈ dates, ValidDate d) :
    (∀ dt : Date, ValidDate dt → parseDate (formatDate dt) = some dt) ∧
    ∀ w ∈ validate_shifts (generate_rota rnd dates staff closure).1
        (generate_rota rnd dates staff closure).2, w.isInvalid = false := by
  refine ⟨parse_format, ?_⟩
  intro w hw
  rw [generate_rota_rows, generate_rota_staff] at hw
  unfold validate_shifts at hw
  obtain ⟨e, hemem, hew⟩ := List.mem_flatMap.mp hw
  have hdate : ∃ d ∈ dates, e.date = formatDate d := by
    have hmm : e.date ∈ (rotaRun rnd closure ⟨staff, none, 0⟩ dates).2.map (fun e => e.date) :=
      List.mem_map_of_mem _ hemem
    rw [rotaRun_dates] at hmm
    obtain ⟨d, hd, he⟩ := List.mem_map.mp hmm
    exact ⟨d, hd, he.symm⟩
  obtain ⟨d, hd, hede⟩ := hdate
  have hparse : parseDate e.date = some d := by
    rw [hede]
    exact parse_format d (hvalid d hd)
  rw [hparse] at hew
  obtain ⟨s, _, hcond⟩ := List.mem_filterMap.mp hew
  by_cases hifc : e.shift = s.name ∧ d ∈ s.holidays
  · rw [if_pos hifc] at hcond
    obtain rfl := Option.some.inj hcond
    rfl
  · rw [if_neg hifc] at hcond
    cases hcond

theorem date_roundtrip_no_invalid_witness :
    (∀ d ∈ ([⟨2025, 1, 6⟩] : List Date), ValidDate d) ∧
    ((∀ dt : Date, ValidDate dt → parseDate (formatDate dt) = some dt) ∧
      ∀ w ∈ validate_shifts
          (generate_rota (fun _ => 0) [⟨2025, 1, 6⟩] [⟨"A", [0], [], [], 0⟩] []).1
          (generate_rota (fun _ => 0) [⟨2025, 1, 6⟩] [⟨"A", [0], [], [], 0⟩] []).2,
        w.isInvalid = false) :=
  ⟨by decide,
   date_roundtrip_no_invalid (fun _ => 0) [⟨2025, 1, 6⟩] [⟨"A", [0], [], [], 0⟩] []
     (by decide)⟩

theorem rotaRun_shift_shape (rnd : Nat → Nat) (closure : List Date) (ds : List Date) :
    ∀ st : EngineState, ∀ e ∈ (rotaRun rnd closure st ds).2,
      ∃ d ∈ ds, e.date = formatDate d ∧
        (e.shift = "CLOSED" ∨ e.shift = "UNASSIGNED" ∨
          ∃ p ∈ st.staff.map fixedPart, e.shift = p.1 ∧ d ∉ p.2.2) := by
  induction ds with
  | nil =>
    intro st e he
    cases he
  | cons d ds ih =>
    intro st e he
    have hrun : (rotaRun rnd closure st (d :: ds)).2 =
        (rotaStep rnd closure st d).2 ::
          (rotaRun rnd closure (rotaStep rnd closure st d).1 ds).2 := rfl
    rw [hrun] at he
    rcases List.mem_cons.mp he with he | he'
    · subst he
      refine ⟨d, List.mem_cons_self d ds, rotaStep_date, ?_⟩
      rcases rotaStep_cases rnd closure st d with ⟨_, hsh⟩ | ⟨j, hj, hsh, _⟩
      · rcases hsh with h | h
        · exact Or.inl h
        · exact Or.inr (Or.inl h)
      · right
        right
        obtain ⟨hlt, _, hhol⟩ := mem_btbList.mp hj
        exact ⟨fixedPart (staffAt st.staff j), List.mem_map_of_mem _ (staffAt_mem hlt), hsh, hhol⟩
    · obtain ⟨d', hd', hdate, hshape⟩ := ih (rotaStep rnd closure st d).1 e he'
      refine ⟨d', List.mem_cons_of_mem d hd', hdate, ?_⟩
      rcases hshape with h | h | ⟨p, hp, hep, hph⟩
      · exact Or.inl h
      · exact Or.inr (Or.inl h)
      · right
        right
        rw [rotaStep_fixedPart] at hp
        exact ⟨p, hp, hep, hph⟩

/-- C1: when staff names are distinct identifiers (and distinct from the two
sentinels), every row whose shift equals a staff member's name carries a date
outside that member's holiday set, and consequently the validator reports zero
holiday-conflict warnings on the produced schedule. -/
theorem holiday_exclusion (rnd : Nat → Nat) (dates : List Date) (staff : List Staff)
    (closure : List Date)
    (hnodup : (staff.map (fun s => s.name)).Nodup)
    (hsent : ∀ s ∈ staff, s.name ≠ "CLOSED" ∧ s.name ≠ "UNASSIGNED")
    (hreset : ∀ s ∈ staff, s.assigned_dates = [] ∧ s.shift_count = 0)
    (hvalid : ∀ d ∈ dates, ValidDate d) :
    (∀ e ∈ (generate_rota rnd dates staff closure).1,
      ∀ s ∈ (generate_rota rnd dates staff closure).2, e.shift = s.name →
        ∀ dt : Date, parseDate e.date = some dt → dt ∉ s.holidays) ∧
    ∀ w ∈ validate_shifts (generate_rota rnd dates staff closure).1
        (generate_rota rnd dates staff closure).2, w.isConflict = false := by
  have hmapf : (generate_rota rnd dates staff closure).2.map fixedPart =
      staff.map fixedPart := by
    rw [generate_rota_staff]
    exact rotaRun_fixedPart rnd closure ⟨staff, none, 0⟩ dates
  have hfstnodup : ((staff.map fixedPart).map (fun p => p.1)).Nodup := by
    rw [List.map_map]
    exact hnodup
  have hmain : ∀ e ∈ (generate_rota rnd dates staff closure).1,
      ∀ s ∈ (generate_rota rnd dates staff closure).2, e.shift = s.name →
        ∀ dt : Date, parseDate e.date = some dt → dt ∉ s.holidays := by
    intro e he s hsfin hname dt hparse hdt
    rw [generate_rota_rows] at he
    obtain ⟨d, hd, hdate, hshape⟩ := rotaRun_shift_shape rnd closure dates ⟨staff, none, 0⟩ e he
    have hdtd : dt = d := by
      rw [hdate] at hparse
      rw [parse_format d (hvalid d hd)] at hparse
      exact (Option.some.inj hparse).symm
    have hsent2 : ∀ s ∈ (generate_rota rnd dates staff closure).2,
        s.name ≠ "CLOSED" ∧ s.name ≠ "UNASSIGNED" :=
      name_prop_preserved (fun n => n ≠ "CLOSED" ∧ n ≠ "UNASSIGNED")
        (names_of_fixedPart hmapf) hsent
    rcases hshape with h | h | ⟨p, hp, hep, hph⟩
    · rw [h] at hname
      exact absurd hname.symm (hsent2 s hsfin).1
    · rw [h] at hname
      exact absurd hname.symm (hsent2 s hsfin).2
    · have hsp : fixedPart s ∈ staff.map fixedPart := by
        rw [← hmapf]
        exact List.mem_map_of_mem _ hsfin
      have hfst : p.1 = (fixedPart s).1 := by
        rw [← hep, hname]
        rfl
      have hpe : p = fixedPart s := List.inj_on_of_nodup_map hfstnodup hp hsp hfst
      rw [hpe] at hph
      rw [hdtd] at hdt
      exact hph hdt
  refine ⟨hmain, ?_⟩
  intro w hw
  unfold validate_shifts at hw
  obtain ⟨e, hemem, hew⟩ := List.mem_flatMap.mp hw
  rcases hpp : parseDate e.date with _ | dt
  · rw [hpp] at hew
    simp only at hew
    rcases List.mem_singleton.mp hew with rfl
    rfl
  · rw [hpp] at hew
    simp only at hew
    obtain ⟨s, hsfin, hcond⟩ := List.mem_filterMap.mp hew
    by_cases hifc : e.shift = s.name ∧ dt ∈ s.holidays
    · exact absurd hifc.2 (hmain e hemem s hsfin hifc.1 dt hpp)
    · rw [if_neg hifc] at hcond
      cases hcond

theorem holiday_exclusion_witness :
    ((([⟨"A", [0], [⟨2025, 1, 13⟩], [], 0⟩] : List Staff).map (fun s => s.name)).Nodup ∧
      (∀ s ∈ ([⟨"A", [0], [⟨2025, 1, 13⟩], [], 0⟩] : List Staff),
        s.name ≠ "CLOSED" ∧ s.name ≠ "UNASSIGNED") ∧
      (∀ s ∈ ([⟨"A", [0], [⟨2025, 1, 13⟩], [], 0⟩] : List Staff),
        s.assigned_dates = [] ∧ s.shift_count = 0) ∧
      (∀ d ∈ ([⟨2025, 1, 6⟩, ⟨2025, 1, 13⟩] : List Date), ValidDate d)) ∧
    ((∀ e ∈ (generate_rota (fun _ => 0) [⟨2025, 1, 6⟩, ⟨2025, 1, 13⟩]
        [⟨"A", [0], [⟨2025, 1, 13⟩], [], 0⟩] []).1,
      ∀ s ∈ (generate_rota (fun _ => 0) [⟨2025, 1, 6⟩, ⟨2025, 1, 13⟩]
        [⟨"A", [0], [⟨2025, 1, 13⟩], [], 0⟩] []).2, e.shift = s.name →
        ∀ dt : Date, parseDate e.date = some dt → dt ∉ s.holidays) ∧
      ∀ w ∈ validate_shifts
          (generate_rota (fun _ => 0) [⟨2025, 1, 6⟩, ⟨2025, 1, 13⟩]
            [⟨"A", [0], [⟨2025, 1, 13⟩], [], 0⟩] []).1
          (generate_rota (fun _ => 0) [⟨2025, 1, 6⟩, ⟨2025, 1, 13⟩]
            [⟨"A", [0], [⟨2025, 1, 13⟩], [], 0⟩] []).2,
        w.isConflict = false) :=
  ⟨⟨by decide, by decide, by decide, by decide⟩,
   holiday_exclusion (fun _ => 0) [⟨2025, 1, 6⟩, ⟨2025, 1, 13⟩]
     [⟨"A", [0], [⟨2025, 1, 13⟩], [], 0⟩] [] (by decide) (by decide) (by decide) (by decide)⟩
